import Mathlib

/-!
Verification of the omni2tree metadata/identifier reconciliation code.

Python strings are modelled as `List Char` (`Str`); the regular-expression
based transformations of the source are unfolded into explicit character-list
functions.  Character classes `[A-Za-z0-9]`, `[A-Za-z0-9_]`, `[A-Za-z_]` and
`\d` are modelled with the ASCII predicates `Char.isAlphanum`, `Char.isAlpha`,
`Char.isDigit`, which agree with the Python classes on the ASCII range used
throughout.  Python dictionaries are modelled as association lists in key
insertion order, with in-place value update on reassignment.
-/

/-- Python strings are modelled as lists of characters. -/
abbrev Str := List Char

/-- Conversion from a Lean string literal to the character-list model. -/
def lit (s : String) : Str := s.data

/-- Characters of the class `[A-Za-z0-9_]` used by the sanitizers. -/
def isWordChar (c : Char) : Bool := c.isAlphanum || c == '_'

/-- Model of Python `str.strip()`: drop leading and trailing whitespace. -/
def trimWs (s : Str) : Str :=
  ((s.dropWhile Char.isWhitespace).reverse.dropWhile Char.isWhitespace).reverse

/-- Model of `clean_alnum` (both `utils` scripts and `msa_to_position_table`):
`re.sub(r"[^A-Za-z0-9]", "", text)`, keeping only alphanumeric characters. -/
def clean_alnum (s : Str) : Str := s.filter Char.isAlphanum

/-- Model of the first line of `tree_label_sanitize`:
`re.sub(r"_(1|2)$", "", text)` removes one trailing `_1` or `_2`. -/
def strip12 (s : Str) : Str :=
  match s.reverse with
  | c1 :: c2 :: rest =>
    if c2 = '_' ∧ (c1 = '1' ∨ c1 = '2') then rest.reverse else s
  | _ => s

/-- Model of the suffix removal in `normalize_msa_id`
(`msa_to_position_table.py`): `re.sub(r'(_R[12]|_[12])$', '', s)`, removing one
trailing `_R1`, `_R2`, `_1` or `_2`. -/
def stripPairSuffix (s : Str) : Str :=
  match s.reverse with
  | c1 :: c2 :: c3 :: rest =>
    if c3 = '_' ∧ c2 = 'R' ∧ (c1 = '1' ∨ c1 = '2') then rest.reverse
    else if c2 = '_' ∧ (c1 = '1' ∨ c1 = '2') then (c3 :: rest).reverse
    else s
  | [c1, c2] => if c2 = '_' ∧ (c1 = '1' ∨ c1 = '2') then [] else s
  | _ => s

/-- Model of `normalize_msa_id` (`msa_to_position_table.py` lines 99-102):
strip whitespace, then remove one trailing `_R1`/`_R2`/`_1`/`_2` token. -/
def normalize_msa_id (s : Str) : Str := stripPairSuffix (trimWs s)

/-- Model of `re.sub(r"X+", "_", text)` for a character class `X` given by `p`:
each maximal run of characters satisfying `p` is replaced by one underscore. -/
def collapse (p : Char → Bool) : Str → Str
  | [] => []
  | [c] => if p c then ['_'] else [c]
  | c :: d :: rest =>
    if p c && p d then collapse p (d :: rest)
    else (if p c then '_' else c) :: collapse p (d :: rest)

/-- Model of Python `.strip("_")`: drop leading and trailing underscores. -/
def stripUnders (s : Str) : Str :=
  ((s.dropWhile (· == '_')).reverse.dropWhile (· == '_')).reverse

/-- Model of `tree_label_sanitize` (`prepare_metadata_o2t_view.py` lines 75-79
and identically `validate_metadata.py` lines 85-89): strip one trailing
`_1`/`_2`, replace runs of non-word characters by `_`, collapse underscore
runs, trim underscores, fall back to `"NA"` when empty. -/
def tree_label_sanitize (s : Str) : Str :=
  let t1 := strip12 s
  let t2 := collapse (fun c => !isWordChar c) t1
  let t3 := stripUnders (collapse (· == '_') t2)
  if t3 = [] then lit "NA" else t3

/-- Model of the follow-up filter applied to `label_safe` in
`build_output_metadata` (line 164) and `validate_output_constraints`
(line 265): `re.sub(r"[^A-Za-z0-9_]", "", label_safe) or "NA"`. -/
def output_label_final (label_safe : Str) : Str :=
  let f := label_safe.filter isWordChar
  if f = [] then lit "NA" else f

/-! Association-list model of Python dictionaries. -/

/-- Lookup of the value bound to key `k` (first entry wins; the update
discipline below keeps at most one entry per key). -/
def alookup (m : List (Str × Str)) (k : Str) : Option Str :=
  match m with
  | [] => none
  | e :: rest => if e.1 = k then some e.2 else alookup rest k

/-- Model of the Python dict assignment `d[k] = v`: update the value in place
when the key is present, otherwise append a new entry (insertion order). -/
def dictAssign (m : List (Str × Str)) (k v : Str) : List (Str × Str) :=
  if (alookup m k).isSome then
    m.map (fun p => if p.1 = k then (k, v) else p)
  else m ++ [(k, v)]

/-- Keep the first occurrence of each element (models iterating a Python set
in insertion order; `List.dedup` keeps last occurrences, hence this helper). -/
def dedupFAux [DecidableEq α] (seen : List α) : List α → List α
  | [] => []
  | a :: rest =>
    if a ∈ seen then dedupFAux seen rest else a :: dedupFAux (a :: seen) rest

/-- First-occurrence deduplication. -/
def dedupF [DecidableEq α] (l : List α) : List α := dedupFAux [] l

/-- Decimal rendering of a natural number, for the `f"{label}_{count}"`
interpolation in `ensure_unique_tree_labels`. -/
def natChars (n : Nat) : Str := (Nat.repr n).data

/-- Model of `ensure_unique_tree_labels` (`prepare_metadata_o2t_view.py` lines
181-190): count occurrences in traversal order with a `Counter`; the first
occurrence keeps its name, the k-th occurrence becomes `name_k`. -/
def eutlAux (counts : Str → Nat) : List Str → List Str
  | [] => []
  | label :: rest =>
    let c := counts label + 1
    let counts' := fun x => if x = label then c else counts x
    (if c = 1 then label else label ++ '_' :: natChars c) :: eutlAux counts' rest

/-- Model of `ensure_unique_tree_labels`. -/
def ensure_unique_tree_labels (labels : List Str) : List Str :=
  eutlAux (fun _ => 0) labels

/-! Reference code index loaders (`five_letter_taxon.tsv`). -/

/-- Model of Python `line.split('\t')`. -/
def splitTab : Str → List Str
  | [] => [[]]
  | c :: rest =>
    match splitTab rest with
    | h :: t => if c = '\t' then [] :: h :: t else (c :: h) :: t
    | [] => if c = '\t' then [[], []] else [[c]]

/-- Per-line behaviour of `load_five_letter_codes`
(`msa_to_position_table.py` lines 119-142): strip the line, skip blank and
`#`-comment lines, skip (with a warning) lines without exactly two
tab-separated fields, skip entries whose cleaned taxon key is empty; a kept
line contributes the binding `clean_alnum(taxon) -> code`. -/
def parseFiveLine (line : Str) : Option (Str × Str) :=
  let l := trimWs line
  if l = [] then none
  else if l.head? = some '#' then none
  else
    match splitTab l with
    | [t, c] =>
      let key := clean_alnum (trimWs t)
      if key = [] then none else some (key, trimWs c)
    | _ => none

/-- Model of the permissive loader `load_five_letter_codes`
(`msa_to_position_table.py`): dict assignment per kept line, so a repeated
key is silently reassigned. -/
def load_five_letter_codes (lines : List Str) : List (Str × Str) :=
  lines.foldl
    (fun m line =>
      match parseFiveLine line with
      | none => m
      | some (k, c) => dictAssign m k c)
    []

/-- Per-line behaviour of `load_five_letter`
(`prepare_metadata_o2t_view.py` lines 124-144): blank and comment lines are
skipped, a line without exactly two tab fields is a fatal error, and a kept
line contributes `clean_alnum(taxon) -> code` and `code -> taxon` without any
duplicate check (dict assignment). -/
def parsePrepLine (line : Str) : Except Unit (Option (Str × Str)) :=
  let l := trimWs line
  if l = [] then .ok none
  else if l.head? = some '#' then .ok none
  else
    match splitTab l with
    | [t, c] => .ok (some (trimWs t, trimWs c))
    | _ => .error ()

/-- Model of `load_five_letter` (`prepare_metadata_o2t_view.py`), returning
the pair of maps `labelkey_to_code` and `code_to_taxon`. -/
def load_five_letter (lines : List Str) :
    Except Unit (List (Str × Str) × List (Str × Str)) :=
  lines.foldlM
    (fun (ms : List (Str × Str) × List (Str × Str)) line => do
      match ← parsePrepLine line with
      | none => pure ms
      | some (taxon, code) =>
        pure (dictAssign ms.1 (clean_alnum taxon) code, dictAssign ms.2 code taxon))
    ([], [])

/-! Label lookup builder (`build_metadata_label_lookup`,
`msa_to_position_table.py` lines 145-202). -/

/-- One metadata row, restricted to the two columns the lookup builder reads:
the match column and the output label column; `none` models a missing (NaN)
cell. -/
structure MetaRow where
  matchValue : Option Str
  outputLabel : Option Str

/-- Candidate identifiers generated for one row (the Python `candidate_ids`
set, in insertion order): the normalized match value, its normalized cleaned
form when non-empty, and the normalized five-letter code when the cleaned
form is a key of the five-letter map bound to a non-empty code. -/
def rowCandidates (fiveLetterMap : List (Str × Str)) (mv : Str) : List Str :=
  let cleaned := clean_alnum mv
  let base :=
    [normalize_msa_id mv] ++ (if cleaned ≠ [] then [normalize_msa_id cleaned] else [])
  let withCode :=
    match alookup fiveLetterMap cleaned with
    | some code => if code ≠ [] then base ++ [normalize_msa_id code] else base
    | none => base
  dedupF withCode

/-- The skip logic at the top of the row loop: a row participates only when
its match value and output label are present and non-empty after stripping;
a participating row yields its candidate set and stripped output label. -/
def rowEntry (fiveLetterMap : List (Str × Str)) (row : MetaRow) :
    Option (List Str × Str) :=
  match row.matchValue with
  | none => none
  | some mv0 =>
    let mv := trimWs mv0
    if mv = [] then none
    else
      match row.outputLabel with
      | none => none
      | some ol0 =>
        let ol := trimWs ol0
        if ol = [] then none else some (rowCandidates fiveLetterMap mv, ol)

/-- One insertion attempt into the candidate map: an existing binding to a
different label is kept and counted as a collision; otherwise the dict
assignment `lookup[candidate] = output_label` is performed. -/
def insertCand (m : List (Str × Str)) (coll : Nat) (c l : Str) :
    List (Str × Str) × Nat :=
  match alookup m c with
  | some l' => if l' ≠ l then (m, coll + 1) else (dictAssign m c l, coll)
  | none => (dictAssign m c l, coll)

/-- Processing of one metadata row: empty candidates are skipped, the others
are inserted with `insertCand`. -/
def processRow (fiveLetterMap : List (Str × Str))
    (st : List (Str × Str) × Nat) (row : MetaRow) : List (Str × Str) × Nat :=
  match rowEntry fiveLetterMap row with
  | none => st
  | some (cands, ol) =>
    cands.foldl (fun st c => if c = [] then st else insertCand st.1 st.2 c ol) st

/-- Model of `build_metadata_label_lookup`: fold the rows over an initially
empty map and collision counter. -/
def build_metadata_label_lookup (fiveLetterMap : List (Str × Str))
    (rows : List MetaRow) : List (Str × Str) × Nat :=
  rows.foldl (processRow fiveLetterMap) ([], 0)

/-- Declarative description of first-write-wins: the label of the first
participating row that generates the (non-empty) candidate `c`. -/
def firstLabel (fiveLetterMap : List (Str × Str)) :
    List MetaRow → Str → Option Str
  | [], _ => none
  | row :: rest, c =>
    match rowEntry fiveLetterMap row with
    | none => firstLabel fiveLetterMap rest c
    | some (cands, ol) =>
      if c ≠ [] ∧ c ∈ cands then some ol else firstLabel fiveLetterMap rest c

/-! Gene selector (`entropy_msa_og_gene_table.py`). -/

/-- Model of `str.casefold` (agrees with it on ASCII, the only characters the
tie-break examples use). -/
def casefold (s : Str) : Str := s.map Char.toLower

/-- Sort relation used for the tie-break: case-insensitive lexicographic
order (`sorted(..., key=str.casefold)`). -/
def geneLe (a b : Str) : Prop := casefold a ≤ casefold b

instance : DecidableRel geneLe :=
  fun a b => inferInstanceAs (Decidable (casefold a ≤ casefold b))

instance : IsTotal Str geneLe := ⟨fun a b => le_total (casefold a) (casefold b)⟩

instance : IsTrans Str geneLe := ⟨fun _ _ _ h h' => le_trans h h'⟩

/-- The maximum multiplicity in the observation list (`counts.max()`). -/
def maxCount (l : List Str) : Nat := (l.map (fun g => l.count g)).foldr Nat.max 0

/-- The distinct names of maximal count, sorted case-insensitively (the
Python `winners` list). -/
def winners (l : List Str) : List Str :=
  List.insertionSort geneLe
    ((dedupF l).filter (fun g => l.count g = maxCount l))

/-- Model of `choose_gene_name` (lines 106-111): the chosen name, its count
and the number of distinct observed names.  (On the empty list, where the
Python code would raise, the placeholder `[]` is returned; all theorems
assume a non-empty observation list.) -/
def choose_gene_name (l : List Str) : Str × Nat × Nat :=
  ((winners l).headD [], maxCount l, (dedupF l).length)

/-- Model of `og_sort_key` (lines 99-103): an OG matching
`^([A-Za-z_]+)(\d+)$` is keyed by (prefix, numeric value); any other OG is
keyed by (raw string, infinity), infinity being modelled as `none`. -/
def og_sort_key (s : Str) : Str × Option Nat :=
  let ds := (s.reverse.takeWhile Char.isDigit).reverse
  let p := s.take (s.length - ds.length)
  if ds ≠ [] ∧ p ≠ [] ∧ p.all (fun c => c.isAlpha || c == '_') then
    (p, some (ds.foldl (fun n c => 10 * n + (c.toNat - 48)) 0))
  else (s, none)

/-- Order on the numeric key component: `none` plays the role of
`float("inf")`. -/
def numLe : Option Nat → Option Nat → Prop
  | some m, some n => m ≤ n
  | some _, none => True
  | none, some _ => False
  | none, none => True

instance : DecidableRel numLe := fun a b => by
  unfold numLe
  cases a <;> cases b <;> infer_instance

/-- Python tuple comparison on sort keys. -/
def keyLe (a b : Str × Option Nat) : Prop :=
  a.1 < b.1 ∨ (a.1 = b.1 ∧ numLe a.2 b.2)

instance : DecidableRel keyLe := fun a b =>
  inferInstanceAs (Decidable (a.1 < b.1 ∨ (a.1 = b.1 ∧ numLe a.2 b.2)))

/-- Sort relation on output records `(OG, gene)`: compare OGs by
`og_sort_key`. -/
def recLe (a b : Str × Str) : Prop := keyLe (og_sort_key a.1) (og_sort_key b.1)

instance : DecidableRel recLe :=
  fun a b => inferInstanceAs (Decidable (keyLe (og_sort_key a.1) (og_sort_key b.1)))

/-- Error raised by `build_mapping` when the filtered table is empty. -/
inductive MapErr where
  | noValidRows
deriving DecidableEq

/-- Model of `build_mapping` (lines 114-145): drop empty gene names unless
`keep_empty_gene`, fail when nothing is left, then per OG (in order of first
appearance, as `groupby(sort=False)`) choose a gene and sort the records by
`og_sort_key`.  The diagnostic conflict table, which no claim observes, is
not modelled. -/
def build_mapping (rows : List (Str × Str)) (keep_empty_gene : Bool) :
    Except MapErr (List (Str × Str)) :=
  let work := if keep_empty_gene then rows else rows.filter (fun r => decide (r.2 ≠ []))
  if work = [] then .error .noValidRows
  else
    let ogs := dedupF (work.map Prod.fst)
    let records := ogs.map (fun og =>
      (og, (choose_gene_name ((work.filter (fun r => decide (r.1 = og))).map Prod.snd)).1))
    .ok (List.insertionSort recLe records)

/-! Metadata CSV parsers (`validate_metadata.py` lines 92-156 and
`prepare_metadata_o2t_view.py` lines 82-121). -/

/-- Errors of the metadata parsers, one constructor per `raise` site; row
numbers count from 3 as in the source (`enumerate(rows[2:], start=3)`). -/
inductive MetaErr where
  | tooFewRows
  | headerTypeMismatch
  | invalidTypes
  | missingLabel
  | missingAccession
  | rowTooManyCols (i : Nat)
  | emptyLabel (i : Nat)
  | labelComma (i : Nat)
  | emptyAccession (i : Nat)
  | accessionComma (i : Nat)
  | noDataRows
deriving DecidableEq

/-- Model of Python `str.lower` (ASCII). -/
def lowerStr (s : Str) : Str := s.map Char.toLower

/-- The `VALID_TYPES` set of `validate_metadata.py`. -/
def validTypes : List Str := [lit "character", lit "date", lit "numeric", lit "integer"]

/-- Model of `lower_map = {col.lower(): col for col in header}` followed by
`lower_map[key]`: the dict comprehension keeps the last column with a given
lowercase form. -/
def lowerLookup (header : List Str) (key : Str) : Option Str :=
  (header.filter (fun c => decide (lowerStr c = key))).getLast?

/-- Model of the row dictionary
`{header[idx]: raw[idx].strip() for idx in range(len(header))}` built from a
row padded with empty cells up to the header width. -/
def rowDict (header : List Str) (raw : List Str) : List (Str × Str) :=
  let padded := raw ++ List.replicate (header.length - raw.length) []
  (header.zip padded).foldl (fun m p => dictAssign m p.1 (trimWs p.2)) []

/-- Model of the skip test `not any(v != "" for v in row.values())`. -/
def rowBlank (d : List (Str × Str)) : Bool := (d.map Prod.snd).all (· = [])

/-- Per-row label/accession checks of `validate_metadata.parse_metadata_csv`
(lines 134-148). -/
def checkRowStrict (i : Nat) (labelCol accCol : Str) (d : List (Str × Str)) :
    Except MetaErr Unit :=
  let label := (alookup d labelCol).getD []
  if label = [] then .error (.emptyLabel i)
  else if ',' ∈ label then .error (.labelComma i)
  else
    let acc := (alookup d accCol).getD []
    if acc = [] then .error (.emptyAccession i)
    else if ',' ∈ acc then .error (.accessionComma i)
    else .ok ()

/-- The shared data-row loop of the two parsers: rows wider than the header
are fatal, blank rows are skipped, and (for the validator only, `strict`)
the per-row label/accession checks run on surviving rows. -/
def parseRows (header : List Str) (labelCol accCol : Str) (strict : Bool) :
    Nat → List (List Str) → Except MetaErr (List (List (Str × Str)))
  | _, [] => .ok []
  | i, raw :: rest =>
    if header.length < raw.length then .error (.rowTooManyCols i)
    else
      let d := rowDict header raw
      if rowBlank d then parseRows header labelCol accCol strict (i + 1) rest
      else
        match (if strict then checkRowStrict i labelCol accCol d else .ok ()) with
        | .error e => .error e
        | .ok _ =>
          match parseRows header labelCol accCol strict (i + 1) rest with
          | .error e => .error e
          | .ok ds => .ok (d :: ds)

/-- Parsed metadata, as in the `MetadataInput` dataclass. -/
structure MetadataInput where
  header : List Str
  types : List Str
  rows : List (List (Str × Str))
  label_col : Str
  accession_col : Str
deriving DecidableEq

deriving instance DecidableEq for Except

/-- Model of `validate_metadata.parse_metadata_csv` (lines 92-156), applied
to the list of CSV records. -/
def parse_metadata_csv_vm (rows : List (List Str)) : Except MetaErr MetadataInput :=
  match rows with
  | r0 :: r1 :: drows =>
    if drows = [] then .error .tooFewRows
    else
      let header := r0.map trimWs
      let types := r1.map (fun t => lowerStr (trimWs t))
      if header.length ≠ types.length then .error .headerTypeMismatch
      else if types.any (fun t => decide (t ∉ validTypes)) then .error .invalidTypes
      else
        match lowerLookup header (lit "label") with
        | none => .error .missingLabel
        | some labelCol =>
          match lowerLookup header (lit "accession") with
          | none => .error .missingAccession
          | some accCol =>
            match parseRows header labelCol accCol true 3 drows with
            | .error e => .error e
            | .ok ds =>
              if ds = [] then .error .noDataRows
              else .ok ⟨header, types, ds, labelCol, accCol⟩
  | _ => .error .tooFewRows

/-- Model of `prepare_metadata_o2t_view.parse_metadata_csv` (lines 82-121):
same structure without the type validation and without the per-row
label/accession checks. -/
def parse_metadata_csv_prep (rows : List (List Str)) : Except MetaErr MetadataInput :=
  match rows with
  | r0 :: r1 :: drows =>
    if drows = [] then .error .tooFewRows
    else
      let header := r0.map trimWs
      let types := r1.map (fun t => lowerStr (trimWs t))
      if header.length ≠ types.length then .error .headerTypeMismatch
      else
        match lowerLookup header (lit "label") with
        | none => .error .missingLabel
        | some labelCol =>
          match lowerLookup header (lit "accession") with
          | none => .error .missingAccession
          | some accCol =>
            match parseRows header labelCol accCol false 3 drows with
            | .error e => .error e
            | .ok ds =>
              if ds = [] then .error .noDataRows
              else .ok ⟨header, types, ds, labelCol, accCol⟩
  | _ => .error .tooFewRows

/-- Declarative description of last-write-wins for the permissive five-letter
loader: the code contributed by the last input line that binds key `k`. -/
def lastBind : List Str → Str → Option Str
  | [], _ => none
  | line :: rest, k =>
    match lastBind rest k with
    | some c => some c
    | none =>
      match parseFiveLine line with
      | some (k', c) => if k' = k then some c else none
      | none => none

/-- Declarative description of last-write-wins for the `labelkey_to_code`
map of `load_five_letter`: the code contributed by the last kept line whose
cleaned taxon equals key `k`. -/
def lastBindPrep : List Str → Str → Option Str
  | [], _ => none
  | line :: rest, k =>
    match lastBindPrep rest k with
    | some c => some c
    | none =>
      match parsePrepLine line with
      | .ok (some (taxon, code)) => if clean_alnum taxon = k then some code else none
      | _ => none

/-- Declarative description of last-write-wins for the `code_to_taxon` map
of `load_five_letter`: the taxon contributed by the last kept line whose
code equals `c`. -/
def lastBindCode : List Str → Str → Option Str
  | [], _ => none
  | line :: rest, c =>
    match lastBindCode rest c with
    | some t => some t
    | none =>
      match parsePrepLine line with
      | .ok (some (taxon, code)) => if code = c then some taxon else none
      | _ => none

/-- Absence of a doubled underscore, as a relation between adjacent
characters. -/
def nodbl (a b : Char) : Prop := ¬(a = '_' ∧ b = '_')

/-- Well-formedness of a sanitized display label: non-empty, only
`[A-Za-z0-9_]` characters, no leading, trailing or doubled underscore. -/
def cleanLabel (s : Str) : Prop :=
  s ≠ [] ∧ s.all isWordChar = true ∧ s.head? ≠ some '_'
    ∧ s.getLast? ≠ some '_' ∧ List.Chain' nodbl s

/-! ### Dictionary lemmas -/

theorem alookup_map_assign_ne (m : List (Str × Str)) (k v k' : Str) (h : k' ≠ k) :
    alookup (m.map (fun p => if p.1 = k then (k, v) else p)) k' = alookup m k' := by
  induction m with
  | nil => rfl
  | cons a rest ih =>
    simp only [List.map_cons, alookup]
    by_cases ha : a.1 = k
    · rw [if_pos ha]
      simp only [alookup]
      rw [if_neg (fun hkk => h hkk.symm), if_neg (fun hak => h (ha ▸ hak).symm), ih]
    · rw [if_neg ha]
      simp only [alookup, ih]

theorem alookup_map_assign_eq (m : List (Str × Str)) (k v : Str) :
    alookup (m.map (fun p => if p.1 = k then (k, v) else p)) k
      = if (alookup m k).isSome then some v else none := by
  induction m with
  | nil => rfl
  | cons a rest ih =>
    simp only [List.map_cons, alookup]
    by_cases ha : a.1 = k
    · rw [if_pos ha]
      simp [alookup, ha]
    · rw [if_neg ha]
      simp only [alookup, if_neg ha, ih]

theorem alookup_append_single (m : List (Str × Str)) (k v k' : Str) :
    alookup (m ++ [(k, v)]) k' =
      match alookup m k' with
      | some w => some w
      | none => if k = k' then some v else none := by
  induction m with
  | nil => rfl
  | cons a rest ih =>
    simp only [List.cons_append, alookup]
    by_cases ha : a.1 = k'
    · rw [if_pos ha, if_pos ha]
    · rw [if_neg ha, if_neg ha]
      exact ih

theorem alookup_dictAssign (m : List (Str × Str)) (k v k' : Str) :
    alookup (dictAssign m k v) k' = if k' = k then some v else alookup m k' := by
  unfold dictAssign
  by_cases hs : (alookup m k).isSome
  · rw [if_pos hs]
    by_cases hk : k' = k
    · subst hk; rw [alookup_map_assign_eq, if_pos hs, if_pos rfl]
    · rw [alookup_map_assign_ne m k v k' hk, if_neg hk]
  · rw [if_neg hs, alookup_append_single]
    by_cases hk : k' = k
    · subst hk
      cases hm : alookup m k' with
      | none => simp
      | some w => rw [hm] at hs; simp at hs
    · cases hm : alookup m k' with
      | none => rw [if_neg fun hkk => hk hkk.symm, if_neg hk]
      | some w => rw [if_neg hk]

/-! ### Claim C3 -/

/-- Claim C3 (code bug witness): `ensure_unique_tree_labels` applied to the
candidate names `["X", "X_2", "X"]` suffixes the repeated `"X"` into `"X_2"`,
which collides with the pre-existing name `"X_2"`, so the final name list is
not pairwise distinct, contrary to the uniqueness the function (and the spec)
promise. -/
theorem C3_duplicate_final_names :
    ensure_unique_tree_labels [lit "X", lit "X_2", lit "X"]
      = [lit "X", lit "X_2", lit "X_2"]
    ∧ ¬ List.Pairwise (fun a b => a ≠ b)
        (ensure_unique_tree_labels [lit "X", lit "X_2", lit "X"]) := by
  decide

/-! ### Claim C6 -/

/-- Claim C6 counterexample: a table in which OG1 has only an empty gene
observation while OG2 survives does not fail with `NoValidRowsError`; it
succeeds and silently omits OG1 from the output. -/
theorem C6_counterexample :
    build_mapping [(lit "OG1", lit ""), (lit "OG2", lit "x")] false
        ≠ .error .noValidRows
    ∧ build_mapping [(lit "OG1", lit ""), (lit "OG2", lit "x")] false
        = .ok [(lit "OG2", lit "x")] := by
  decide

/-- Claim C6 (amended): `build_mapping` fails with `NoValidRowsError` exactly
when the whole filtered table is empty, i.e. when every row of the input is
dropped by the empty-gene filter (or the input itself is empty); an OG whose
observations are all filtered out while other OGs survive is silently
omitted, as the concrete conjuncts show. -/
theorem C6_no_valid_rows :
    (∀ (rows : List (Str × Str)) (keep : Bool),
      build_mapping rows keep = .error .noValidRows
        ↔ (if keep then rows else rows.filter (fun r => decide (r.2 ≠ []))) = [])
    ∧ build_mapping [(lit "OG1", lit ""), (lit "OG2", lit "x")] false
        = .ok [(lit "OG2", lit "x")]
    ∧ lit "OG1" ∉ List.map Prod.fst [(lit "OG2", lit "x")] := by
  refine ⟨fun rows keep => ?_, by decide, by decide⟩
  simp only [build_mapping]
  split
  next h => simp [h]
  next h => simp [h]

/-! ### Claim C4 -/

/-- Claim C4 counterexample: two lines whose taxon comparison keys coincide;
the permissive loader binds the key to the code of the LATER line, not the
earlier one. -/
theorem C4_counterexample :
    alookup
        (load_five_letter_codes
          [lit "Homo sapiens\tAAAAA", lit "Homo-sapiens\tBBBBB"])
        (lit "Homosapiens")
      = some (lit "BBBBB")
    ∧ some (lit "BBBBB") ≠ some (lit "AAAAA") := by
  decide

theorem load_codes_aux (lines : List Str) :
    ∀ (m : List (Str × Str)) (k : Str),
      alookup
          (lines.foldl
            (fun m line =>
              match parseFiveLine line with
              | none => m
              | some (k, c) => dictAssign m k c)
            m)
          k
        = match lastBind lines k with
          | some c => some c
          | none => alookup m k := by
  induction lines with
  | nil => intro m k; rfl
  | cons line rest ih =>
    intro m k
    simp only [List.foldl_cons]
    rw [ih]
    show _ = (match lastBind (line :: rest) k with
      | some c => some c
      | none => alookup m k)
    simp only [lastBind]
    cases hl : lastBind rest k with
    | some c => rfl
    | none =>
      cases hp : parseFiveLine line with
      | none => rfl
      | some kc =>
        obtain ⟨k0, c0⟩ := kc
        show alookup (dictAssign m k0 c0) k
          = match (if k0 = k then some c0 else none) with
            | some c => some c
            | none => alookup m k
        rw [alookup_dictAssign]
        by_cases hk : k = k0
        · rw [if_pos hk, if_pos hk.symm]
        · rw [if_neg hk, if_neg fun hkk => hk hkk.symm]

theorem load_prep_aux (lines : List Str) :
    ∀ (ms m : List (Str × Str) × List (Str × Str)),
      lines.foldlM
          (fun (st : List (Str × Str) × List (Str × Str)) line => do
            match ← parsePrepLine line with
            | none => pure st
            | some (taxon, code) =>
              pure (dictAssign st.1 (clean_alnum taxon) code,
                    dictAssign st.2 code taxon))
          ms = .ok m →
      (∀ k, alookup m.1 k =
          match lastBindPrep lines k with
          | some c => some c
          | none => alookup ms.1 k)
      ∧ (∀ c, alookup m.2 c =
          match lastBindCode lines c with
          | some t => some t
          | none => alookup ms.2 c) := by
  induction lines with
  | nil =>
    intro ms m h
    have h' : (Except.ok ms : Except Unit (List (Str × Str) × List (Str × Str)))
        = .ok m := h
    injection h' with h'
    subst h'
    exact ⟨fun k => rfl, fun c => rfl⟩
  | cons line rest ih =>
    intro ms m h
    simp only [List.foldlM_cons] at h
    cases hp : parsePrepLine line with
    | error e =>
      rw [hp] at h
      exact Except.noConfusion
        (show (Except.error e : Except Unit (List (Str × Str) × List (Str × Str)))
            = .ok m from h)
    | ok v =>
      rw [hp] at h
      cases v with
      | none =>
        have hres := ih ms m h
        constructor
        · intro k
          rw [hres.1 k]
          show _ = (match lastBindPrep (line :: rest) k with
            | some c => some c
            | none => alookup ms.1 k)
          simp only [lastBindPrep]
          cases hl : lastBindPrep rest k with
          | some c => rfl
          | none => rw [hp]
        · intro c
          rw [hres.2 c]
          show _ = (match lastBindCode (line :: rest) c with
            | some t => some t
            | none => alookup ms.2 c)
          simp only [lastBindCode]
          cases hl : lastBindCode rest c with
          | some t => rfl
          | none => rw [hp]
      | some tc =>
        obtain ⟨taxon, code⟩ := tc
        have hres := ih (dictAssign ms.1 (clean_alnum taxon) code,
          dictAssign ms.2 code taxon) m h
        constructor
        · intro k
          rw [hres.1 k]
          show (match lastBindPrep rest k with
            | some c => some c
            | none => alookup (dictAssign ms.1 (clean_alnum taxon) code) k)
            = (match lastBindPrep (line :: rest) k with
              | some c => some c
              | none => alookup ms.1 k)
          simp only [lastBindPrep]
          cases hl : lastBindPrep rest k with
          | some c => rfl
          | none =>
            rw [hp, alookup_dictAssign]
            show (if k = clean_alnum taxon then some code else alookup ms.1 k)
              = match (if clean_alnum taxon = k then some code else none) with
                | some c => some c
                | none => alookup ms.1 k
            by_cases hk : k = clean_alnum taxon
            · rw [if_pos hk, if_pos hk.symm]
            · rw [if_neg hk, if_neg (fun hkk => hk hkk.symm)]
        · intro c
          rw [hres.2 c]
          show (match lastBindCode rest c with
            | some t => some t
            | none => alookup (dictAssign ms.2 code taxon) c)
            = (match lastBindCode (line :: rest) c with
              | some t => some t
              | none => alookup ms.2 c)
          simp only [lastBindCode]
          cases hl : lastBindCode rest c with
          | some t => rfl
          | none =>
            rw [hp, alookup_dictAssign]
            show (if c = code then some taxon else alookup ms.2 c)
              = match (if code = c then some taxon else none) with
                | some t => some t
                | none => alookup ms.2 c
            by_cases hc : c = code
            · rw [if_pos hc, if_pos hc.symm]
            · rw [if_neg hc, if_neg (fun hcc => hc hcc.symm)]

/-- Claim C4 (amended): the permissive loaders silently keep the LAST
occurrence: `load_five_letter_codes` binds every key to the code of the
last line producing it; whenever `load_five_letter` succeeds, its
`labelkey_to_code` map binds every key to the last line's code and its
`code_to_taxon` map binds every code to the last line's taxon; the two
concrete conjuncts show a duplicated key and a duplicated code being
reassigned without raising. -/
theorem C4_last_occurrence_wins :
    (∀ (lines : List Str) (k : Str),
      alookup (load_five_letter_codes lines) k = lastBind lines k)
    ∧ (∀ (lines : List Str) (m1 m2 : List (Str × Str)),
        load_five_letter lines = .ok (m1, m2) →
        (∀ k, alookup m1 k = lastBindPrep lines k)
        ∧ (∀ c, alookup m2 c = lastBindCode lines c))
    ∧ load_five_letter [lit "Homo sapiens\tAAAAA", lit "Homo-sapiens\tBBBBB"]
        = .ok ([(lit "Homosapiens", lit "BBBBB")],
               [(lit "AAAAA", lit "Homo sapiens"), (lit "BBBBB", lit "Homo-sapiens")])
    ∧ load_five_letter [lit "TaxA\tCCCCC", lit "TaxB\tCCCCC"]
        = .ok ([(lit "TaxA", lit "CCCCC"), (lit "TaxB", lit "CCCCC")],
               [(lit "CCCCC", lit "TaxB")]) := by
  refine ⟨fun lines k => ?_, fun lines m1 m2 h => ?_, by decide, by decide⟩
  · unfold load_five_letter_codes
    rw [load_codes_aux]
    cases hl : lastBind lines k <;> rfl
  · unfold load_five_letter at h
    have hres := load_prep_aux lines ([], []) (m1, m2) h
    constructor
    · intro k
      rw [show alookup m1 k = alookup (m1, m2).1 k from rfl, hres.1 k]
      cases hl : lastBindPrep lines k <;> rfl
    · intro c
      rw [show alookup m2 c = alookup (m1, m2).2 c from rfl, hres.2 c]
      cases hl : lastBindCode lines c <;> rfl

/-- Claim C4 witness: the last-write-wins description applied to a concrete
successful `load_five_letter` run with a duplicated key. -/
theorem C4_witness :
    alookup [(lit "Homosapiens", lit "BBBBB")] (lit "Homosapiens")
      = lastBindPrep [lit "Homo sapiens\tAAAAA", lit "Homo-sapiens\tBBBBB"]
          (lit "Homosapiens") :=
  (C4_last_occurrence_wins.2.1
      [lit "Homo sapiens\tAAAAA", lit "Homo-sapiens\tBBBBB"]
      [(lit "Homosapiens", lit "BBBBB")]
      [(lit "AAAAA", lit "Homo sapiens"), (lit "BBBBB", lit "Homo-sapiens")]
      (by decide)).1 (lit "Homosapiens")

/-! ### Claim C1 counterexample and Claim C8 counterexample -/

/-- Claim C1 counterexample: `tree_label_sanitize` is not idempotent: the
input `"a#1"` sanitizes to `"a_1"`, whose second sanitization strips the
trailing `_1` and yields `"a"`. -/
theorem C1_counterexample :
    tree_label_sanitize (tree_label_sanitize (lit "a#1")) = lit "a"
    ∧ tree_label_sanitize (lit "a#1") = lit "a_1"
    ∧ lit "a" ≠ lit "a_1" := by
  decide

/-- Claim C8 counterexample: `tree_label_sanitize("sample_R1")` keeps its
`_R1` suffix (only `_1`/`_2` are stripped by this function), contrary to the
claim that the suffix is removed. -/
theorem C8_counterexample :
    tree_label_sanitize (lit "sample_R1") = lit "sample_R1"
    ∧ lit "_R1" <:+ tree_label_sanitize (lit "sample_R1") := by
  decide

/-! ### Claim C8 amended -/

theorem strip12_append_R1 (s : Str) : strip12 (s ++ lit "_R1") = s ++ lit "_R1" := by
  have h : (s ++ lit "_R1").reverse = '1' :: 'R' :: '_' :: s.reverse := by
    simp [lit]
  unfold strip12
  rw [h]
  simp

theorem strip12_append_R2 (s : Str) : strip12 (s ++ lit "_R2") = s ++ lit "_R2" := by
  have h : (s ++ lit "_R2").reverse = '2' :: 'R' :: '_' :: s.reverse := by
    simp [lit]
  unfold strip12
  rw [h]
  simp

theorem strip12_append_1 (s : Str) : strip12 (s ++ lit "_1") = s := by
  have h : (s ++ lit "_1").reverse = '1' :: '_' :: s.reverse := by
    simp [lit]
  unfold strip12
  rw [h]
  simp

theorem strip12_append_2 (s : Str) : strip12 (s ++ lit "_2") = s := by
  have h : (s ++ lit "_2").reverse = '2' :: '_' :: s.reverse := by
    simp [lit]
  unfold strip12
  rw [h]
  simp

theorem stripPair_append_R1 (s : Str) : stripPairSuffix (s ++ lit "_R1") = s := by
  have h : (s ++ lit "_R1").reverse = '1' :: 'R' :: '_' :: s.reverse := by
    simp [lit]
  unfold stripPairSuffix
  rw [h]
  simp

theorem stripPair_append_R2 (s : Str) : stripPairSuffix (s ++ lit "_R2") = s := by
  have h : (s ++ lit "_R2").reverse = '2' :: 'R' :: '_' :: s.reverse := by
    simp [lit]
  unfold stripPairSuffix
  rw [h]
  simp

theorem stripPair_append_1 (s : Str) : stripPairSuffix (s ++ lit "_1") = s := by
  cases hs : s.reverse with
  | nil =>
    have hnil : s = [] := by simpa using congrArg List.reverse hs
    subst hnil
    decide
  | cons c3 rest =>
    have h : (s ++ lit "_1").reverse = '1' :: '_' :: c3 :: rest := by
      simp [lit, hs]
    have hs' : s = (c3 :: rest).reverse := by
      rw [← hs, List.reverse_reverse]
    unfold stripPairSuffix
    rw [h]
    simp [hs']

theorem stripPair_append_2 (s : Str) : stripPairSuffix (s ++ lit "_2") = s := by
  cases hs : s.reverse with
  | nil =>
    have hnil : s = [] := by simpa using congrArg List.reverse hs
    subst hnil
    decide
  | cons c3 rest =>
    have h : (s ++ lit "_2").reverse = '2' :: '_' :: c3 :: rest := by
      simp [lit, hs]
    have hs' : s = (c3 :: rest).reverse := by
      rw [← hs, List.reverse_reverse]
    unfold stripPairSuffix
    rw [h]
    simp [hs']

/-- Claim C8 (amended): the `_1`/`_2` stripping in `tree_label_sanitize`
does remove a trailing `_1` or `_2` before punctuation collapsing, but it
never removes `_R1`/`_R2` (those are removed only by `normalize_msa_id`):
`tree_label_sanitize("sample_R1")` keeps the suffix while
`normalize_msa_id("sample_R1")` strips it. -/
theorem C8_suffix_handling :
    (∀ s : Str, strip12 (s ++ lit "_1") = s)
    ∧ (∀ s : Str, strip12 (s ++ lit "_2") = s)
    ∧ (∀ s : Str, strip12 (s ++ lit "_R1") = s ++ lit "_R1")
    ∧ (∀ s : Str, strip12 (s ++ lit "_R2") = s ++ lit "_R2")
    ∧ (∀ s : Str, stripPairSuffix (s ++ lit "_R1") = s)
    ∧ (∀ s : Str, stripPairSuffix (s ++ lit "_R2") = s)
    ∧ (∀ s : Str, stripPairSuffix (s ++ lit "_1") = s)
    ∧ (∀ s : Str, stripPairSuffix (s ++ lit "_2") = s)
    ∧ tree_label_sanitize (lit "sample_R1") = lit "sample_R1"
    ∧ tree_label_sanitize (lit "sample_1") = lit "sample"
    ∧ normalize_msa_id (lit "sample_R1") = lit "sample"
    ∧ normalize_msa_id (lit "sample_2") = lit "sample" :=
  ⟨strip12_append_1, strip12_append_2, strip12_append_R1, strip12_append_R2,
   stripPair_append_R1, stripPair_append_R2, stripPair_append_1, stripPair_append_2,
   by decide, by decide, by decide, by decide⟩

/-! ### Claim C2 -/

theorem alookup_insertCand (m : List (Str × Str)) (coll : Nat) (c l k : Str) :
    alookup (insertCand m coll c l).1 k
      = if k = c ∧ alookup m c = none then some l else alookup m k := by
  unfold insertCand
  cases hmc : alookup m c with
  | none =>
    show alookup (dictAssign m c l, coll).1 k = _
    rw [alookup_dictAssign]
    by_cases hk : k = c
    · simp [hk]
    · simp [hk]
  | some l' =>
    show alookup (if l' ≠ l then (m, coll + 1) else (dictAssign m c l, coll)).1 k = _
    by_cases hl : l' ≠ l
    · rw [if_pos hl]
      simp
    · rw [if_neg hl]
      push_neg at hl
      subst hl
      rw [alookup_dictAssign]
      by_cases hk : k = c
      · subst hk
        simp [hmc]
      · simp [hk]

theorem alookup_foldCands (ol : Str) (cands : List Str) :
    ∀ (st : List (Str × Str) × Nat) (k : Str),
      alookup
          (cands.foldl
            (fun st c => if c = [] then st else insertCand st.1 st.2 c ol) st).1
          k
        = match alookup st.1 k with
          | some v => some v
          | none => if k ≠ [] ∧ k ∈ cands then some ol else none := by
  induction cands with
  | nil =>
    intro st k
    cases h : alookup st.1 k <;> simp [h]
  | cons c rest ih =>
    intro st k
    simp only [List.foldl_cons]
    by_cases hc : c = []
    · rw [if_pos hc, ih]
      have hiff : (k ≠ [] ∧ k ∈ c :: rest) ↔ (k ≠ [] ∧ k ∈ rest) := by
        subst hc
        constructor
        · rintro ⟨hne, hm⟩
          cases List.mem_cons.mp hm with
          | inl h => exact absurd h hne
          | inr h => exact ⟨hne, h⟩
        · rintro ⟨hne, hm⟩
          exact ⟨hne, List.mem_cons_of_mem _ hm⟩
      cases h : alookup st.1 k with
      | some v => rfl
      | none => rw [if_congr hiff.symm rfl rfl]
    · rw [if_neg hc, ih]
      by_cases hk : k = c ∧ alookup st.1 c = none
      · rw [alookup_insertCand, if_pos hk]
        obtain ⟨hkc, hnone⟩ := hk
        subst hkc
        rw [hnone]
        show some ol = if k ≠ [] ∧ k ∈ k :: rest then some ol else none
        rw [if_pos ⟨hc, List.mem_cons_self k rest⟩]
      · rw [alookup_insertCand, if_neg hk]
        cases h : alookup st.1 k with
        | some v => rfl
        | none =>
          have hkc : k ≠ c := by
            intro he
            exact hk ⟨he, he ▸ h⟩
          have hiff : (k ≠ [] ∧ k ∈ rest) ↔ (k ≠ [] ∧ k ∈ c :: rest) := by
            constructor
            · rintro ⟨hne, hm⟩
              exact ⟨hne, List.mem_cons_of_mem _ hm⟩
            · rintro ⟨hne, hm⟩
              cases List.mem_cons.mp hm with
              | inl he => exact absurd he hkc
              | inr hm' => exact ⟨hne, hm'⟩
          rw [if_congr hiff rfl rfl]

theorem alookup_buildAux (fl : List (Str × Str)) (rows : List MetaRow) :
    ∀ (st : List (Str × Str) × Nat) (k : Str),
      alookup (rows.foldl (processRow fl) st).1 k
        = match alookup st.1 k with
          | some v => some v
          | none => firstLabel fl rows k := by
  induction rows with
  | nil =>
    intro st k
    cases h : alookup st.1 k <;> simp [h, firstLabel]
  | cons row rest ih =>
    intro st k
    simp only [List.foldl_cons]
    rw [ih]
    show _ = match alookup st.1 k with
      | some v => some v
      | none => firstLabel fl (row :: rest) k
    simp only [firstLabel]
    cases he : rowEntry fl row with
    | none =>
      simp only [processRow, he]
    | some ce =>
      obtain ⟨cands, ol⟩ := ce
      simp only [processRow, he]
      rw [alookup_foldCands]
      cases h : alookup st.1 k with
      | some v => rfl
      | none =>
        by_cases hcond : k ≠ [] ∧ k ∈ cands
        · rw [if_pos hcond, if_pos hcond]
        · rw [if_neg hcond, if_neg hcond]

/-- Claim C2: the label-lookup construction obeys first-write-wins: every
candidate in the final map is bound to the output label of the first
participating row that generated it (`firstLabel`); an insertion attempt on
an already-bound candidate with a different label leaves the map unchanged
and adds exactly one to the collision counter; and the two-row overlap
example yields a collision count of 1 with the first binding preserved. -/
theorem C2_first_write_wins :
    (∀ (fl : List (Str × Str)) (rows : List MetaRow) (k : Str),
      alookup (build_metadata_label_lookup fl rows).1 k = firstLabel fl rows k)
    ∧ (∀ (m : List (Str × Str)) (coll : Nat) (c l l' : Str),
        alookup m c = some l' → l' ≠ l → insertCand m coll c l = (m, coll + 1))
    ∧ build_metadata_label_lookup []
        [⟨some (lit "S1"), some (lit "Alpha")⟩, ⟨some (lit "S-1"), some (lit "Beta")⟩]
      = ([(lit "S1", lit "Alpha"), (lit "S-1", lit "Beta")], 1) := by
  refine ⟨fun fl rows k => ?_, fun m coll c l l' h hne => ?_, by decide⟩
  · unfold build_metadata_label_lookup
    rw [alookup_buildAux]
    exact rfl
  · unfold insertCand
    rw [h]
    simp [hne]

/-- Claim C2 witness: the collision step applied at a concrete bound map. -/
theorem C2_witness :
    insertCand [(lit "a", lit "X")] 0 (lit "a") (lit "Y")
      = ([(lit "a", lit "X")], 1) :=
  C2_first_write_wins.2.1 [(lit "a", lit "X")] 0 (lit "a") (lit "Y") (lit "X")
    (by decide) (by decide)

/-! ### Claim C7 -/

theorem numLe_total (a b : Option Nat) : numLe a b ∨ numLe b a := by
  cases a <;> cases b <;> simp [numLe] <;> omega

theorem numLe_trans (a b c : Option Nat) : numLe a b → numLe b c → numLe a c := by
  cases a <;> cases b <;> cases c <;> simp [numLe] <;> omega

theorem keyLe_total (a b : Str × Option Nat) : keyLe a b ∨ keyLe b a := by
  rcases lt_trichotomy a.1 b.1 with h | h | h
  · exact Or.inl (Or.inl h)
  · rcases numLe_total a.2 b.2 with hn | hn
    · exact Or.inl (Or.inr ⟨h, hn⟩)
    · exact Or.inr (Or.inr ⟨h.symm, hn⟩)
  · exact Or.inr (Or.inl h)

theorem keyLe_trans (a b c : Str × Option Nat) :
    keyLe a b → keyLe b c → keyLe a c := by
  rintro (h1 | ⟨h1e, h1n⟩) (h2 | ⟨h2e, h2n⟩)
  · exact Or.inl (lt_trans h1 h2)
  · exact Or.inl (lt_of_lt_of_eq h1 h2e)
  · exact Or.inl (lt_of_eq_of_lt h1e h2)
  · exact Or.inr ⟨h1e.trans h2e, numLe_trans _ _ _ h1n h2n⟩

instance : IsTotal (Str × Str) recLe := ⟨fun a b => keyLe_total _ _⟩

instance : IsTrans (Str × Str) recLe :=
  ⟨fun _ _ _ h1 h2 => keyLe_trans _ _ _ h1 h2⟩

/-- Claim C7 counterexample: `"AB"` does not match the prefix+digits pattern,
yet its key `("AB", inf)` sorts BEFORE the matching `"OG9"` key `("OG", 9)`,
and `build_mapping` emits `AB` before `OG9`; so a non-matching OG does not
sort after all matching OGs. -/
theorem C7_counterexample :
    build_mapping [(lit "OG9", lit "g"), (lit "AB", lit "h")] false
      = .ok [(lit "AB", lit "h"), (lit "OG9", lit "g")]
    ∧ og_sort_key (lit "AB") = (lit "AB", none)
    ∧ og_sort_key (lit "OG9") = (lit "OG", some 9)
    ∧ ¬ keyLe (og_sort_key (lit "OG9")) (og_sort_key (lit "AB")) := by
  decide

/-- Claim C7 (amended): the emitted rows are sorted by the natural key
(`og_sort_key` with Python tuple comparison `keyLe`): `"OG9"` precedes
`"OG10"`, and a non-matching OG sorts after every matching OG whose
alphabetic prefix equals the non-matching OG's raw string — but not
necessarily after all matching OGs (see the counterexample). -/
theorem C7_output_ordering :
    (∀ (rows : List (Str × Str)) (keep : Bool) (m : List (Str × Str)),
      build_mapping rows keep = .ok m → List.Sorted recLe m)
    ∧ keyLe (og_sort_key (lit "OG9")) (og_sort_key (lit "OG10"))
    ∧ ¬ keyLe (og_sort_key (lit "OG10")) (og_sort_key (lit "OG9"))
    ∧ (∀ (a b : Str) (p : Str) (n : Nat),
        og_sort_key a = (p, some n) → og_sort_key b = (p, none) →
          keyLe (og_sort_key a) (og_sort_key b)
          ∧ ¬ keyLe (og_sort_key b) (og_sort_key a)) := by
  refine ⟨fun rows keep m hm => ?_, by decide, by decide, fun _ _ p n ha hb => ?_⟩
  · simp only [build_mapping] at hm
    split at hm <;> split at hm
    all_goals
      first
      | exact Except.noConfusion hm
      | (injection hm with hm
         rw [← hm]
         exact List.sorted_insertionSort recLe _)
  · rw [ha, hb]
    refine ⟨Or.inr ⟨rfl, trivial⟩, ?_⟩
    rintro (h | ⟨he, hn⟩)
    · exact absurd h (lt_irrefl p)
    · exact hn

/-- Claim C7 witness: sortedness obtained from a concrete `build_mapping`
run. -/
theorem C7_witness :
    List.Sorted recLe [(lit "AB", lit "h"), (lit "OG9", lit "g")] :=
  C7_output_ordering.1 [(lit "OG9", lit "g"), (lit "AB", lit "h")] false _
    (by decide)

/-! ### Claim C5 -/

theorem le_foldrMax (ns : List Nat) (a : Nat) (h : a ∈ ns) :
    a ≤ ns.foldr Nat.max 0 := by
  induction ns with
  | nil => cases h
  | cons b rest ih =>
    rcases List.mem_cons.mp h with rfl | hm
    · exact Nat.le_max_left _ _
    · exact le_trans (ih hm) (Nat.le_max_right _ _)

theorem foldrMax_mem (ns : List Nat) (h : ns ≠ []) : ns.foldr Nat.max 0 ∈ ns := by
  induction ns with
  | nil => exact absurd rfl h
  | cons b rest ih =>
    by_cases hr : rest = []
    · subst hr
      simp
    · rcases le_total b (rest.foldr Nat.max 0) with hle | hle
      · have hc : b.max (rest.foldr Nat.max 0) = rest.foldr Nat.max 0 :=
          Nat.max_eq_right hle
        rw [List.foldr_cons, hc]
        exact List.mem_cons_of_mem _ (ih hr)
      · have hc : b.max (rest.foldr Nat.max 0) = b := Nat.max_eq_left hle
        rw [List.foldr_cons, hc]
        exact List.mem_cons_self _ _

theorem count_le_maxCount (l : List Str) (g : Str) (h : g ∈ l) :
    l.count g ≤ maxCount l :=
  le_foldrMax _ _ (List.mem_map_of_mem _ h)

theorem count_perm (l l' : List Str) (hp : l.Perm l') (a : Str) :
    l.count a = l'.count a := by
  induction hp with
  | nil => rfl
  | cons x _ ih => simp [List.count_cons, ih]
  | swap x y t => simp [List.count_cons]; omega
  | trans _ _ ih1 ih2 => exact ih1.trans ih2

theorem maxCount_attained (l : List Str) (h : l ≠ []) :
    ∃ g ∈ l, l.count g = maxCount l := by
  have hm : maxCount l ∈ l.map (fun g => l.count g) :=
    foldrMax_mem _ (fun hme => h (List.map_eq_nil_iff.mp hme))
  obtain ⟨g, hg, he⟩ := List.mem_map.mp hm
  exact ⟨g, hg, he⟩

theorem mem_dedupFAux [DecidableEq α] (l : List α) :
    ∀ (seen : List α) (a : α), a ∈ dedupFAux seen l ↔ a ∈ l ∧ a ∉ seen := by
  induction l with
  | nil =>
    intro seen a
    simp [dedupFAux]
  | cons b rest ih =>
    intro seen a
    simp only [dedupFAux]
    by_cases hb : b ∈ seen
    · rw [if_pos hb, ih]
      constructor
      · rintro ⟨hm, hs⟩
        exact ⟨List.mem_cons_of_mem _ hm, hs⟩
      · rintro ⟨hm, hs⟩
        rcases List.mem_cons.mp hm with rfl | hm'
        · exact absurd hb hs
        · exact ⟨hm', hs⟩
    · rw [if_neg hb]
      constructor
      · intro hm
        rcases List.mem_cons.mp hm with rfl | hm'
        · exact ⟨List.mem_cons_self _ _, hb⟩
        · obtain ⟨h1, h2⟩ := (ih _ _).mp hm'
          exact ⟨List.mem_cons_of_mem _ h1,
                 fun hs => h2 (List.mem_cons_of_mem _ hs)⟩
      · rintro ⟨hm, hs⟩
        rcases List.mem_cons.mp hm with rfl | hm'
        · exact List.mem_cons_self _ _
        · by_cases hab : a = b
          · subst hab
            exact List.mem_cons_self _ _
          · refine List.mem_cons_of_mem _ ((ih _ _).mpr ⟨hm', fun hbs => ?_⟩)
            rcases List.mem_cons.mp hbs with he | hms
            · exact hab he
            · exact hs hms

theorem nodup_dedupFAux [DecidableEq α] (l : List α) :
    ∀ seen : List α, (dedupFAux seen l).Nodup := by
  induction l with
  | nil =>
    intro seen
    simp [dedupFAux]
  | cons b rest ih =>
    intro seen
    simp only [dedupFAux]
    by_cases hb : b ∈ seen
    · rw [if_pos hb]
      exact ih seen
    · rw [if_neg hb]
      refine List.nodup_cons.mpr ⟨?_, ih _⟩
      intro hmem
      exact ((mem_dedupFAux rest _ b).mp hmem).2 (List.mem_cons_self _ _)

theorem mem_dedupF [DecidableEq α] (l : List α) (a : α) :
    a ∈ dedupF l ↔ a ∈ l := by
  unfold dedupF
  rw [mem_dedupFAux]
  simp

theorem nodup_dedupF [DecidableEq α] (l : List α) : (dedupF l).Nodup :=
  nodup_dedupFAux l []

theorem mem_winners (l : List Str) (g : Str) :
    g ∈ winners l ↔ g ∈ l ∧ l.count g = maxCount l := by
  unfold winners
  rw [(List.perm_insertionSort _ _).mem_iff, List.mem_filter, mem_dedupF]
  simp

theorem winners_ne_nil (l : List Str) (h : l ≠ []) : winners l ≠ [] := by
  obtain ⟨g, hg, he⟩ := maxCount_attained l h
  intro hw
  have hmem : g ∈ winners l := (mem_winners l g).mpr ⟨hg, he⟩
  rw [hw] at hmem
  exact absurd hmem (List.not_mem_nil g)

theorem chosen_mem_winners (l : List Str) (h : l ≠ []) :
    (choose_gene_name l).1 ∈ winners l := by
  show (winners l).headD [] ∈ winners l
  cases hw : winners l with
  | nil => exact absurd hw (winners_ne_nil l h)
  | cons a t => exact List.mem_cons_self a t

theorem chosen_min (l : List Str) (h : l ≠ []) :
    ∀ g ∈ winners l, geneLe (choose_gene_name l).1 g := by
  intro g hg
  have hs : List.Sorted geneLe (winners l) := List.sorted_insertionSort geneLe _
  show geneLe ((winners l).headD []) g
  cases hw : winners l with
  | nil =>
    rw [hw] at hg
    exact absurd hg (List.not_mem_nil g)
  | cons a t =>
    rw [hw] at hg hs
    rcases List.mem_cons.mp hg with rfl | hg'
    · exact le_refl _
    · exact (List.sorted_cons.mp hs).1 g hg'

/-- Claim C5: `choose_gene_name` returns a name of maximal multiplicity,
breaking ties by case-insensitive lexicographic order (its result is
casefold-minimal among the maximal names); an OG with a unique
strict-majority name yields that name, for every permutation of the input
observations; and the concrete tie `["b", "A", "c"]` is won by `"A"`. -/
theorem C5_choose_gene_name :
    (∀ l : List Str, l ≠ [] →
      (choose_gene_name l).1 ∈ l
      ∧ l.count (choose_gene_name l).1 = maxCount l
      ∧ (∀ g ∈ l, l.count g ≤ l.count (choose_gene_name l).1)
      ∧ (∀ g ∈ l, l.count g = maxCount l → geneLe (choose_gene_name l).1 g))
    ∧ (∀ (l : List Str) (g₀ : Str), g₀ ∈ l →
        (∀ g ∈ l, g ≠ g₀ → l.count g < l.count g₀) →
        (choose_gene_name l).1 = g₀)
    ∧ (∀ (l l' : List Str) (g₀ : Str), l.Perm l' → g₀ ∈ l →
        (∀ g ∈ l, g ≠ g₀ → l.count g < l.count g₀) →
        (choose_gene_name l).1 = (choose_gene_name l').1)
    ∧ (choose_gene_name [lit "b", lit "A", lit "c"]).1 = lit "A" := by
  have hmaj : ∀ (l : List Str) (g₀ : Str), g₀ ∈ l →
      (∀ g ∈ l, g ≠ g₀ → l.count g < l.count g₀) →
      (choose_gene_name l).1 = g₀ := by
    intro l g₀ hg₀ hstrict
    have hne : l ≠ [] := List.ne_nil_of_mem hg₀
    have hcnt : l.count g₀ = maxCount l := by
      obtain ⟨g, hg, he⟩ := maxCount_attained l hne
      by_cases hgg : g = g₀
      · subst hgg
        exact he
      · have hlt := hstrict g hg hgg
        have hle := count_le_maxCount l g₀ hg₀
        omega
    have hwmem : g₀ ∈ winners l := (mem_winners l g₀).mpr ⟨hg₀, hcnt⟩
    have hall : ∀ g ∈ winners l, g = g₀ := by
      intro g hg
      obtain ⟨hgl, hgc⟩ := (mem_winners l g).mp hg
      by_contra hne'
      have hlt := hstrict g hgl hne'
      omega
    have hnodup : (winners l).Nodup := by
      unfold winners
      exact (List.perm_insertionSort _ _).symm.nodup ((nodup_dedupF _).filter _)
    have hw : winners l = [g₀] := by
      cases hwl : winners l with
      | nil =>
        rw [hwl] at hwmem
        exact absurd hwmem (List.not_mem_nil _)
      | cons a t =>
        rw [hwl] at hall hnodup
        have ha : a = g₀ := hall a (List.mem_cons_self _ _)
        subst ha
        cases ht : t with
        | nil => rfl
        | cons b u =>
          rw [ht] at hall hnodup
          have hb : b = a := hall b (List.mem_cons_of_mem _ (List.mem_cons_self _ _))
          have hnm := (List.nodup_cons.mp hnodup).1
          rw [hb] at hnm
          exact absurd (List.mem_cons_self a u) hnm
    show (winners l).headD [] = g₀
    rw [hw]
    rfl
  refine ⟨fun l hne => ?_, hmaj, fun l l' g₀ hp hg hstrict => ?_, by decide⟩
  · obtain ⟨hm, hc⟩ := (mem_winners l _).mp (chosen_mem_winners l hne)
    refine ⟨hm, hc, fun g hg => ?_, fun g hg hgc => ?_⟩
    · rw [hc]
      exact count_le_maxCount l g hg
    · exact chosen_min l hne g ((mem_winners l g).mpr ⟨hg, hgc⟩)
  · rw [hmaj l g₀ hg hstrict, hmaj l' g₀ (hp.mem_iff.mp hg) ?_]
    intro g hgl' hne
    rw [← count_perm l l' hp g, ← count_perm l l' hp g₀]
    exact hstrict g (hp.mem_iff.mpr hgl') hne

/-- Claim C5 witness: a strict-majority instance. -/
theorem C5_witness :
    (choose_gene_name [lit "x", lit "y", lit "x"]).1 = lit "x" :=
  C5_choose_gene_name.2.1 [lit "x", lit "y", lit "x"] (lit "x")
    (by decide) (by decide)

/-! ### Claims C1 and C9: invariants of the sanitized label -/

theorem collapse_mem (p : Char → Bool) (s : Str) :
    ∀ c ∈ collapse p s, c = '_' ∨ (p c = false ∧ c ∈ s) := by
  induction s with
  | nil =>
    intro c hc
    cases hc
  | cons a tail ih =>
    cases tail with
    | nil =>
      intro c hc
      rw [show collapse p [a] = if p a then ['_'] else [a] from rfl] at hc
      by_cases hp : p a
      · rw [if_pos hp] at hc
        rw [List.mem_singleton.mp hc]
        exact Or.inl rfl
      · rw [if_neg hp] at hc
        rw [List.mem_singleton.mp hc]
        exact Or.inr ⟨by simpa using hp, List.mem_singleton_self _⟩
    | cons d rest =>
      intro c hc
      rw [show collapse p (a :: d :: rest)
          = if p a && p d then collapse p (d :: rest)
            else (if p a then '_' else a) :: collapse p (d :: rest) from rfl] at hc
      by_cases hpd : p a && p d
      · rw [if_pos hpd] at hc
        rcases ih c hc with h | ⟨h1, h2⟩
        · exact Or.inl h
        · exact Or.inr ⟨h1, List.mem_cons_of_mem _ h2⟩
      · rw [if_neg hpd] at hc
        rcases List.mem_cons.mp hc with rfl | hc'
        · by_cases hpa : p a
          · rw [if_pos hpa]
            exact Or.inl rfl
          · rw [if_neg hpa]
            exact Or.inr ⟨by simpa using hpa, List.mem_cons_self _ _⟩
        · rcases ih c hc' with h | ⟨h1, h2⟩
          · exact Or.inl h
          · exact Or.inr ⟨h1, List.mem_cons_of_mem _ h2⟩

theorem collapse_cons_head (p : Char → Bool) :
    ∀ (rest : Str) (d : Char),
      ∃ t, collapse p (d :: rest) = (if p d then '_' else d) :: t := by
  intro rest
  induction rest with
  | nil =>
    intro d
    by_cases hd : p d = true
    · exact ⟨[], by
        rw [show collapse p [d] = if p d then ['_'] else [d] from rfl,
            if_pos hd, if_pos hd]⟩
    · exact ⟨[], by
        rw [show collapse p [d] = if p d then ['_'] else [d] from rfl,
            if_neg hd, if_neg hd]⟩
  | cons e u ih =>
    intro d
    by_cases hde : (p d && p e) = true
    · obtain ⟨t, ht⟩ := ih e
      have hde' : p d = true ∧ p e = true := by simpa using hde
      obtain ⟨hd, he⟩ := hde'
      refine ⟨t, ?_⟩
      rw [show collapse p (d :: e :: u)
          = if p d && p e then collapse p (e :: u)
            else (if p d then '_' else d) :: collapse p (e :: u) from rfl]
      rw [if_pos hde, ht, if_pos hd, if_pos he]
    · refine ⟨collapse p (e :: u), ?_⟩
      rw [show collapse p (d :: e :: u)
          = if p d && p e then collapse p (e :: u)
            else (if p d then '_' else d) :: collapse p (e :: u) from rfl]
      rw [if_neg hde]

theorem collapse_chain (s : Str) :
    List.Chain' nodbl (collapse (· == '_') s) := by
  induction s with
  | nil => exact List.chain'_nil
  | cons a tail ih =>
    cases tail with
    | nil =>
      rw [show collapse (· == '_') [a] = if (a == '_') then ['_'] else [a] from rfl]
      by_cases ha : (a == '_') = true
      · rw [if_pos ha]
        exact List.chain'_singleton _
      · rw [if_neg ha]
        exact List.chain'_singleton _
    | cons d rest =>
      rw [show collapse (· == '_') (a :: d :: rest)
          = if (a == '_') && (d == '_') then collapse (· == '_') (d :: rest)
            else (if (a == '_') then '_' else a) :: collapse (· == '_') (d :: rest)
          from rfl]
      by_cases had : ((a == '_') && (d == '_')) = true
      · rw [if_pos had]
        exact ih
      · rw [if_neg had]
        obtain ⟨t, ht⟩ := collapse_cons_head (· == '_') rest d
        rw [ht]
        rw [ht] at ih
        refine List.chain'_cons.mpr ⟨?_, ih⟩
        by_cases hd : (d == '_') = true
        · have ha : (a == '_') = false := by
            cases haa : (a == '_') with
            | false => rfl
            | true => exact absurd (by rw [haa, hd]; rfl) had
          rw [if_pos hd, if_neg (by simp [ha])]
          intro hcon
          have : a = '_' := hcon.1
          rw [this] at ha
          simp at ha
        · rw [if_neg hd]
          intro hcon
          have : d = '_' := hcon.2
          rw [this] at hd
          simp at hd

theorem collapse_id_of_all_not (p : Char → Bool) (s : Str)
    (h : ∀ c ∈ s, p c = false) : collapse p s = s := by
  induction s with
  | nil => rfl
  | cons a tail ih =>
    cases tail with
    | nil =>
      rw [show collapse p [a] = if p a then ['_'] else [a] from rfl]
      simp [h a (List.mem_cons_self _ _)]
    | cons d rest =>
      rw [show collapse p (a :: d :: rest)
          = if p a && p d then collapse p (d :: rest)
            else (if p a then '_' else a) :: collapse p (d :: rest) from rfl]
      have ha := h a (List.mem_cons_self _ _)
      have ih' := ih (fun c hc => h c (List.mem_cons_of_mem _ hc))
      simp [ha, ih']

theorem collapse_underscore_id (s : Str)
    (h : List.Chain' nodbl s) : collapse (· == '_') s = s := by
  induction s with
  | nil => rfl
  | cons a tail ih =>
    cases tail with
    | nil =>
      rw [show collapse (· == '_') [a] = if (a == '_') then ['_'] else [a] from rfl]
      by_cases ha : (a == '_') = true
      · rw [if_pos ha]
        have : a = '_' := by simpa using ha
        rw [this]
      · rw [if_neg ha]
    | cons d rest =>
      rw [show collapse (· == '_') (a :: d :: rest)
          = if (a == '_') && (d == '_') then collapse (· == '_') (d :: rest)
            else (if (a == '_') then '_' else a) :: collapse (· == '_') (d :: rest)
          from rfl]
      have hrel := (List.chain'_cons.mp h).1
      have htail := (List.chain'_cons.mp h).2
      have hno : ((a == '_') && (d == '_')) = false := by
        cases haa : (a == '_') with
        | false => simp
        | true =>
          cases hdd : (d == '_') with
          | false => simp
          | true =>
            exact absurd ⟨by simpa using haa, by simpa using hdd⟩ hrel
      rw [if_neg (by simp [hno]), ih htail]
      by_cases ha : (a == '_') = true
      · have : a = '_' := by simpa using ha
        rw [if_pos ha, this]
      · rw [if_neg ha]

theorem chain'_dropWhile (R : Char → Char → Prop) (p : Char → Bool) (s : Str)
    (h : List.Chain' R s) : List.Chain' R (s.dropWhile p) := by
  induction s with
  | nil => exact h
  | cons a tail ih =>
    rw [List.dropWhile_cons]
    by_cases hp : p a = true
    · rw [if_pos hp]
      exact ih h.tail
    · rw [if_neg hp]
      exact h

theorem head_dropWhile_false (p : Char → Bool) (s : Str) (c : Char)
    (h : (s.dropWhile p).head? = some c) : p c = false := by
  induction s with
  | nil => exact Option.noConfusion h
  | cons a tail ih =>
    rw [List.dropWhile_cons] at h
    by_cases hp : p a = true
    · rw [if_pos hp] at h
      exact ih h
    · rw [if_neg hp] at h
      have hac : a = c := by
        rw [List.head?_cons] at h
        exact Option.some.inj h
      rw [← hac]
      simpa using hp

theorem dropWhile_isSuffix (p : Char → Bool) (s : Str) : s.dropWhile p <:+ s := by
  induction s with
  | nil => exact List.suffix_rfl
  | cons a tail ih =>
    rw [List.dropWhile_cons]
    by_cases hp : p a = true
    · rw [if_pos hp]
      exact ih.trans (List.suffix_cons a tail)
    · rw [if_neg hp]

theorem dropWhile_underscore_id (s : Str) (h : s.head? ≠ some '_') :
    s.dropWhile (· == '_') = s := by
  cases s with
  | nil => rfl
  | cons a tail =>
    have ha : (a == '_') = false := by
      cases haa : (a == '_') with
      | false => rfl
      | true =>
        have : a = '_' := by simpa using haa
        exact absurd (by rw [this]; rfl) h
    rw [List.dropWhile_cons]
    simp [ha]

theorem stripUnders_head (s : Str) : (stripUnders s).head? ≠ some '_' := by
  unfold stripUnders
  intro hcon
  rw [List.head?_reverse] at hcon
  obtain ⟨t, ht⟩ := dropWhile_isSuffix (· == '_') (s.dropWhile (· == '_')).reverse
  have hlast : (s.dropWhile (· == '_')).reverse.getLast? = some '_' := by
    rw [← ht, List.getLast?_append, hcon]
    rfl
  rw [List.getLast?_reverse] at hlast
  have hf := head_dropWhile_false (· == '_') s '_' hlast
  simp at hf

theorem stripUnders_last (s : Str) : (stripUnders s).getLast? ≠ some '_' := by
  unfold stripUnders
  intro hcon
  rw [List.getLast?_reverse] at hcon
  have hf := head_dropWhile_false (· == '_') _ '_' hcon
  simp at hf

theorem stripUnders_subset (s : Str) (c : Char) (h : c ∈ stripUnders s) :
    c ∈ s := by
  unfold stripUnders at h
  rw [List.mem_reverse] at h
  have h2 := (dropWhile_isSuffix (· == '_') _).subset h
  rw [List.mem_reverse] at h2
  exact (dropWhile_isSuffix (· == '_') _).subset h2

theorem chain'_reverse_nodbl (l : Str) (h : List.Chain' nodbl l) :
    List.Chain' nodbl l.reverse := by
  rw [List.chain'_reverse]
  exact h.imp (fun a b hab => fun hcon => hab ⟨hcon.2, hcon.1⟩)

theorem chain'_stripUnders (s : Str) (h : List.Chain' nodbl s) :
    List.Chain' nodbl (stripUnders s) := by
  unfold stripUnders
  exact chain'_reverse_nodbl _
    (chain'_dropWhile _ _ _ (chain'_reverse_nodbl _ (chain'_dropWhile _ _ _ h)))

theorem stripUnders_id_of (s : Str) (h1 : s.head? ≠ some '_')
    (h2 : s.getLast? ≠ some '_') : stripUnders s = s := by
  unfold stripUnders
  rw [dropWhile_underscore_id s h1]
  rw [dropWhile_underscore_id s.reverse (by rw [List.head?_reverse]; exact h2)]
  exact List.reverse_reverse s

theorem collapse_nonword_all (s : Str) :
    (collapse (fun c => !isWordChar c) s).all isWordChar = true := by
  rw [List.all_eq_true]
  intro c hc
  rcases collapse_mem _ s c hc with rfl | ⟨h1, _⟩
  · rfl
  · simpa using h1

theorem collapse_underscore_all (s : Str) (h : s.all isWordChar = true) :
    (collapse (· == '_') s).all isWordChar = true := by
  rw [List.all_eq_true] at h ⊢
  intro c hc
  rcases collapse_mem _ s c hc with rfl | ⟨_, h2⟩
  · rfl
  · exact h c h2

theorem sanitize_clean (x : Str) : cleanLabel (tree_label_sanitize x) := by
  show cleanLabel
    (if stripUnders
        (collapse (· == '_') (collapse (fun c => !isWordChar c) (strip12 x))) = []
      then lit "NA"
      else stripUnders
        (collapse (· == '_') (collapse (fun c => !isWordChar c) (strip12 x))))
  by_cases h3 : stripUnders
      (collapse (· == '_') (collapse (fun c => !isWordChar c) (strip12 x))) = []
  · rw [if_pos h3]
    refine ⟨by decide, by decide, by decide, by decide, ?_⟩
    exact List.chain'_cons.mpr ⟨fun hcon => by simpa using hcon.1, List.chain'_singleton _⟩
  · rw [if_neg h3]
    refine ⟨h3, ?_, stripUnders_head _, stripUnders_last _,
            chain'_stripUnders _ (collapse_chain _)⟩
    rw [List.all_eq_true]
    intro c hcm
    have hcw := stripUnders_subset _ c hcm
    exact List.all_eq_true.mp
      (collapse_underscore_all _ (collapse_nonword_all _)) c hcw

theorem sanitize_id_of_clean (y : Str) (hc : cleanLabel y)
    (hs : strip12 y = y) : tree_label_sanitize y = y := by
  obtain ⟨hne, hall, hhead, hlast, hchain⟩ := hc
  show (if stripUnders
        (collapse (· == '_') (collapse (fun c => !isWordChar c) (strip12 y))) = []
      then lit "NA"
      else stripUnders
        (collapse (· == '_') (collapse (fun c => !isWordChar c) (strip12 y)))) = y
  rw [hs]
  rw [collapse_id_of_all_not (fun c => !isWordChar c) y
    (fun c hcm => by simp [List.all_eq_true.mp hall c hcm])]
  rw [collapse_underscore_id y hchain]
  rw [stripUnders_id_of y hhead hlast]
  rw [if_neg hne]

/-- Claim C1 (amended): `tree_label_sanitize` is idempotent on every input
whose sanitized form is unchanged by the trailing `_1`/`_2` strip (i.e. does
not end in `_1` or `_2`); on other inputs a second application additionally
strips that trailing token (see the counterexample `"a#1"`). -/
theorem C1_sanitize_idempotent :
    ∀ x : Str, strip12 (tree_label_sanitize x) = tree_label_sanitize x →
      tree_label_sanitize (tree_label_sanitize x) = tree_label_sanitize x :=
  fun x h => sanitize_id_of_clean _ (sanitize_clean x) h

/-- Claim C1 witness: idempotence at a concrete input whose sanitized form
has no `_1`/`_2` suffix. -/
theorem C1_witness :
    tree_label_sanitize (tree_label_sanitize (lit "hello#world"))
      = tree_label_sanitize (lit "hello#world") :=
  C1_sanitize_idempotent (lit "hello#world") (by decide)

/-- Claim C9: every sanitized label is non-empty, consists only of
`[A-Za-z0-9_]` characters, has no leading, trailing or doubled underscore,
and is therefore a fixed point of the follow-up filter
`re.sub(r"[^A-Za-z0-9_]", "", label_safe) or "NA"` used by
`build_output_metadata` and `validate_output_constraints`: `label_final`
always equals `label_safe`. -/
theorem C9_label_final_identity :
    ∀ x : Str,
      cleanLabel (tree_label_sanitize x)
      ∧ output_label_final (tree_label_sanitize x) = tree_label_sanitize x := by
  intro x
  refine ⟨sanitize_clean x, ?_⟩
  obtain ⟨hne, hall, h3, h4, h5⟩ := sanitize_clean x
  show (if (tree_label_sanitize x).filter isWordChar = []
      then lit "NA" else (tree_label_sanitize x).filter isWordChar)
    = tree_label_sanitize x
  rw [List.filter_eq_self.mpr (fun a ha => List.all_eq_true.mp hall a ha)]
  rw [if_neg hne]

/-! ### Claim C10 -/

theorem dictAssign_values_blank (m : List (Str × Str)) (k : Str)
    (hm : ∀ q ∈ m, q.2 = []) : ∀ q ∈ dictAssign m k [], q.2 = [] := by
  intro q hq
  unfold dictAssign at hq
  by_cases hs : (alookup m k).isSome
  · rw [if_pos hs] at hq
    obtain ⟨p, hp, hpe⟩ := List.mem_map.mp hq
    by_cases hpk : p.1 = k
    · rw [if_pos hpk] at hpe
      rw [← hpe]
    · rw [if_neg hpk] at hpe
      rw [← hpe]
      exact hm p hp
  · rw [if_neg hs] at hq
    rcases List.mem_append.mp hq with h | h
    · exact hm q h
    · rw [List.mem_singleton.mp h]

theorem rowDict_blank (header raw : List Str)
    (h : ∀ cell ∈ raw, trimWs cell = []) :
    rowBlank (rowDict header raw) = true := by
  have hfold : ∀ (pairs : List (Str × Str)) (m0 : List (Str × Str)),
      (∀ q ∈ m0, q.2 = []) → (∀ p ∈ pairs, trimWs p.2 = []) →
      ∀ q ∈ pairs.foldl (fun m p => dictAssign m p.1 (trimWs p.2)) m0, q.2 = [] := by
    intro pairs
    induction pairs with
    | nil =>
      intro m0 hm0 _ q hq
      exact hm0 q hq
    | cons p ps ih =>
      intro m0 hm0 hp q hq
      rw [List.foldl_cons] at hq
      have hpt : trimWs p.2 = [] := hp p (List.mem_cons_self _ _)
      rw [hpt] at hq
      exact ih _ (dictAssign_values_blank m0 p.1 hm0)
        (fun r hr => hp r (List.mem_cons_of_mem _ hr)) q hq
  unfold rowBlank rowDict
  rw [List.all_eq_true]
  intro v hv
  obtain ⟨q, hq, hqe⟩ := List.mem_map.mp hv
  have hq2 : q.2 = [] := by
    refine hfold _ [] (fun q hq => absurd hq (List.not_mem_nil q)) ?_ q hq
    intro p hp
    have hp2 := (List.of_mem_zip hp).2
    rcases List.mem_append.mp hp2 with h1 | h1
    · exact h p.2 h1
    · rw [List.eq_of_mem_replicate h1]
      rfl
  rw [← hqe]
  simp [hq2]

theorem parseRows_skip_blank (header : List Str) (labelCol accCol : Str)
    (strict : Bool) (i : Nat) (raw : List Str) (rest : List (List Str))
    (hlen : raw.length ≤ header.length)
    (hblank : rowBlank (rowDict header raw) = true) :
    parseRows header labelCol accCol strict i (raw :: rest)
      = parseRows header labelCol accCol strict (i + 1) rest := by
  simp only [parseRows]
  rw [if_neg (not_lt.mpr hlen), if_pos hblank]

theorem parseRows_all_blank (header : List Str) (labelCol accCol : Str)
    (strict : Bool) (drows : List (List Str)) :
    ∀ i : Nat,
      (∀ raw ∈ drows,
        raw.length ≤ header.length ∧ ∀ cell ∈ raw, trimWs cell = []) →
      parseRows header labelCol accCol strict i drows = .ok [] := by
  induction drows with
  | nil =>
    intro i _
    rfl
  | cons raw rest ih =>
    intro i h
    obtain ⟨hlen, hcells⟩ := h raw (List.mem_cons_self _ _)
    rw [parseRows_skip_blank _ _ _ _ _ _ _ hlen (rowDict_blank _ _ hcells)]
    exact ih (i + 1) (fun r hr => h r (List.mem_cons_of_mem _ hr))

theorem parseRows_ok_nil (header : List Str) (labelCol accCol : Str)
    (strict : Bool) (drows : List (List Str)) :
    ∀ i : Nat,
      parseRows header labelCol accCol strict i drows = .ok [] →
      ∀ raw ∈ drows,
        raw.length ≤ header.length ∧ rowBlank (rowDict header raw) = true := by
  induction drows with
  | nil =>
    intro i _ raw hraw
    cases hraw
  | cons raw rest ih =>
    intro i hok r hr
    simp only [parseRows] at hok
    by_cases hlen : header.length < raw.length
    · rw [if_pos hlen] at hok
      exact Except.noConfusion hok
    · rw [if_neg hlen] at hok
      by_cases hblank : rowBlank (rowDict header raw) = true
      · rw [if_pos hblank] at hok
        rcases List.mem_cons.mp hr with rfl | hr'
        · exact ⟨not_lt.mp hlen, hblank⟩
        · exact ih (i + 1) hok r hr'
      · rw [if_neg hblank] at hok
        cases hc : (if strict then checkRowStrict i labelCol accCol (rowDict header raw)
            else Except.ok ()) with
        | error e =>
          rw [hc] at hok
          exact Except.noConfusion hok
        | ok u =>
          rw [hc] at hok
          cases hrest : parseRows header labelCol accCol strict (i + 1) rest with
          | error e =>
            rw [hrest] at hok
            exact Except.noConfusion hok
          | ok ds =>
            rw [hrest] at hok
            have hok' : Except.ok (rowDict header raw :: ds)
                = (Except.ok [] : Except MetaErr (List (List (Str × Str)))) := hok
            injection hok' with hok'
            exact absurd hok' (List.cons_ne_nil _ _)

theorem checkRowStrict_ne_noDataRows (i : Nat) (labelCol accCol : Str)
    (d : List (Str × Str)) :
    checkRowStrict i labelCol accCol d ≠ .error .noDataRows := by
  intro h
  simp only [checkRowStrict] at h
  split at h
  · injection h with h
    exact MetaErr.noConfusion h
  · split at h
    · injection h with h
      exact MetaErr.noConfusion h
    · split at h
      · injection h with h
        exact MetaErr.noConfusion h
      · split at h
        · injection h with h
          exact MetaErr.noConfusion h
        · exact Except.noConfusion h

theorem parseRows_ne_noDataRows (header : List Str) (labelCol accCol : Str)
    (strict : Bool) (drows : List (List Str)) :
    ∀ i : Nat,
      parseRows header labelCol accCol strict i drows ≠ .error .noDataRows := by
  induction drows with
  | nil =>
    intro i h
    exact Except.noConfusion h
  | cons raw rest ih =>
    intro i h
    simp only [parseRows] at h
    by_cases hlen : header.length < raw.length
    · rw [if_pos hlen] at h
      injection h with h
      exact MetaErr.noConfusion h
    · rw [if_neg hlen] at h
      by_cases hblank : rowBlank (rowDict header raw) = true
      · rw [if_pos hblank] at h
        exact ih (i + 1) h
      · rw [if_neg hblank] at h
        cases hc : (if strict then checkRowStrict i labelCol accCol (rowDict header raw)
            else Except.ok ()) with
        | error e =>
          rw [hc] at h
          have h' : (Except.error e : Except MetaErr (List (List (Str × Str))))
              = .error .noDataRows := h
          injection h' with h'
          subst h'
          by_cases hstrict : strict = true
          · rw [if_pos hstrict] at hc
            exact checkRowStrict_ne_noDataRows i labelCol accCol _ hc
          · rw [if_neg hstrict] at hc
            exact Except.noConfusion hc
        | ok u =>
          rw [hc] at h
          cases hrest : parseRows header labelCol accCol strict (i + 1) rest with
          | error e =>
            rw [hrest] at h
            have h' : (Except.error e : Except MetaErr (List (List (Str × Str))))
                = .error .noDataRows := h
            injection h' with h'
            subst h'
            exact ih (i + 1) hrest
          | ok ds =>
            rw [hrest] at h
            exact Except.noConfusion
              (show Except.ok (rowDict header raw :: ds)
                  = (Except.error MetaErr.noDataRows :
                      Except MetaErr (List (List (Str × Str)))) from h)

theorem parse_vm_noDataRows (r0 r1 : List Str) (drows : List (List Str))
    (lc ac : Str)
    (h1 : drows ≠ [])
    (h2 : (r0.map trimWs).length = (r1.map (fun t => lowerStr (trimWs t))).length)
    (h3 : (r1.map (fun t => lowerStr (trimWs t))).any
        (fun t => decide (t ∉ validTypes)) = false)
    (h4 : lowerLookup (r0.map trimWs) (lit "label") = some lc)
    (h5 : lowerLookup (r0.map trimWs) (lit "accession") = some ac)
    (h6 : ∀ raw ∈ drows,
        raw.length ≤ (r0.map trimWs).length ∧ ∀ cell ∈ raw, trimWs cell = []) :
    parse_metadata_csv_vm (r0 :: r1 :: drows) = .error .noDataRows := by
  simp only [parse_metadata_csv_vm]
  rw [if_neg h1]
  rw [if_neg (fun hne => hne h2)]
  rw [if_neg (fun hcon => by rw [h3] at hcon; exact Bool.noConfusion hcon)]
  rw [h4, h5]
  show (match parseRows (r0.map trimWs) lc ac true 3 drows with
      | Except.error e => Except.error e
      | Except.ok ds =>
        if ds = [] then Except.error MetaErr.noDataRows
        else Except.ok
          (⟨r0.map trimWs, r1.map (fun t => lowerStr (trimWs t)), ds, lc, ac⟩ :
            MetadataInput))
    = Except.error MetaErr.noDataRows
  rw [parseRows_all_blank _ _ _ _ drows 3 h6]
  rfl

theorem parse_prep_noDataRows (r0 r1 : List Str) (drows : List (List Str))
    (lc ac : Str)
    (h1 : drows ≠ [])
    (h2 : (r0.map trimWs).length = (r1.map (fun t => lowerStr (trimWs t))).length)
    (h4 : lowerLookup (r0.map trimWs) (lit "label") = some lc)
    (h5 : lowerLookup (r0.map trimWs) (lit "accession") = some ac)
    (h6 : ∀ raw ∈ drows,
        raw.length ≤ (r0.map trimWs).length ∧ ∀ cell ∈ raw, trimWs cell = []) :
    parse_metadata_csv_prep (r0 :: r1 :: drows) = .error .noDataRows := by
  simp only [parse_metadata_csv_prep]
  rw [if_neg h1]
  rw [if_neg (fun hne => hne h2)]
  rw [h4, h5]
  show (match parseRows (r0.map trimWs) lc ac false 3 drows with
      | Except.error e => Except.error e
      | Except.ok ds =>
        if ds = [] then Except.error MetaErr.noDataRows
        else Except.ok
          (⟨r0.map trimWs, r1.map (fun t => lowerStr (trimWs t)), ds, lc, ac⟩ :
            MetadataInput))
    = Except.error MetaErr.noDataRows
  rw [parseRows_all_blank _ _ _ _ drows 3 h6]
  rfl

theorem parse_vm_noDataRows_inv (r0 r1 : List Str) (drows : List (List Str))
    (h : parse_metadata_csv_vm (r0 :: r1 :: drows) = .error .noDataRows) :
    ∀ raw ∈ drows,
      raw.length ≤ (r0.map trimWs).length
      ∧ rowBlank (rowDict (r0.map trimWs) raw) = true := by
  simp only [parse_metadata_csv_vm] at h
  by_cases h1 : drows = []
  · rw [if_pos h1] at h
    injection h with h
    exact MetaErr.noConfusion h
  · rw [if_neg h1] at h
    by_cases h2 : (r0.map trimWs).length ≠ (r1.map (fun t => lowerStr (trimWs t))).length
    · rw [if_pos h2] at h
      injection h with h
      exact MetaErr.noConfusion h
    · rw [if_neg h2] at h
      by_cases h3 : (r1.map (fun t => lowerStr (trimWs t))).any
          (fun t => decide (t ∉ validTypes)) = true
      · rw [if_pos h3] at h
        injection h with h
        exact MetaErr.noConfusion h
      · rw [if_neg h3] at h
        cases h4 : lowerLookup (r0.map trimWs) (lit "label") with
        | none =>
          rw [h4] at h
          have h' : (Except.error MetaErr.missingLabel : Except MetaErr MetadataInput)
              = .error .noDataRows := h
          injection h' with h'
          exact MetaErr.noConfusion h'
        | some lc =>
          rw [h4] at h
          cases h5 : lowerLookup (r0.map trimWs) (lit "accession") with
          | none =>
            rw [h5] at h
            have h' : (Except.error MetaErr.missingAccession : Except MetaErr MetadataInput)
                = .error .noDataRows := h
            injection h' with h'
            exact MetaErr.noConfusion h'
          | some ac =>
            rw [h5] at h
            have h' : (match parseRows (r0.map trimWs) lc ac true 3 drows with
                | Except.error e => Except.error e
                | Except.ok ds =>
                  if ds = [] then Except.error MetaErr.noDataRows
                  else Except.ok
                    (⟨r0.map trimWs, r1.map (fun t => lowerStr (trimWs t)),
                      ds, lc, ac⟩ : MetadataInput))
                = Except.error MetaErr.noDataRows := h
            cases hp : parseRows (r0.map trimWs) lc ac true 3 drows with
            | error e =>
              rw [hp] at h'
              have h'' : (Except.error e : Except MetaErr MetadataInput)
                  = .error .noDataRows := h'
              injection h'' with h''
              subst h''
              exact absurd hp (parseRows_ne_noDataRows _ _ _ _ drows 3)
            | ok ds =>
              rw [hp] at h'
              have h'' : (if ds = [] then Except.error MetaErr.noDataRows
                  else Except.ok
                    (⟨r0.map trimWs, r1.map (fun t => lowerStr (trimWs t)),
                      ds, lc, ac⟩ : MetadataInput))
                  = Except.error MetaErr.noDataRows := h'
              by_cases hds : ds = []
              · subst hds
                exact parseRows_ok_nil _ _ _ _ drows 3 hp
              · rw [if_neg hds] at h''
                exact Except.noConfusion h''

theorem parse_prep_noDataRows_inv (r0 r1 : List Str) (drows : List (List Str))
    (h : parse_metadata_csv_prep (r0 :: r1 :: drows) = .error .noDataRows) :
    ∀ raw ∈ drows,
      raw.length ≤ (r0.map trimWs).length
      ∧ rowBlank (rowDict (r0.map trimWs) raw) = true := by
  simp only [parse_metadata_csv_prep] at h
  by_cases h1 : drows = []
  · rw [if_pos h1] at h
    injection h with h
    exact MetaErr.noConfusion h
  · rw [if_neg h1] at h
    by_cases h2 : (r0.map trimWs).length ≠ (r1.map (fun t => lowerStr (trimWs t))).length
    · rw [if_pos h2] at h
      injection h with h
      exact MetaErr.noConfusion h
    · rw [if_neg h2] at h
      cases h4 : lowerLookup (r0.map trimWs) (lit "label") with
      | none =>
        rw [h4] at h
        have h' : (Except.error MetaErr.missingLabel : Except MetaErr MetadataInput)
            = .error .noDataRows := h
        injection h' with h'
        exact MetaErr.noConfusion h'
      | some lc =>
        rw [h4] at h
        cases h5 : lowerLookup (r0.map trimWs) (lit "accession") with
        | none =>
          rw [h5] at h
          have h' : (Except.error MetaErr.missingAccession : Except MetaErr MetadataInput)
              = .error .noDataRows := h
          injection h' with h'
          exact MetaErr.noConfusion h'
        | some ac =>
          rw [h5] at h
          have h' : (match parseRows (r0.map trimWs) lc ac false 3 drows with
              | Except.error e => Except.error e
              | Except.ok ds =>
                if ds = [] then Except.error MetaErr.noDataRows
                else Except.ok
                  (⟨r0.map trimWs, r1.map (fun t => lowerStr (trimWs t)),
                    ds, lc, ac⟩ : MetadataInput))
              = Except.error MetaErr.noDataRows := h
          cases hp : parseRows (r0.map trimWs) lc ac false 3 drows with
          | error e =>
            rw [hp] at h'
            have h'' : (Except.error e : Except MetaErr MetadataInput)
                = .error .noDataRows := h'
            injection h'' with h''
            subst h''
            exact absurd hp (parseRows_ne_noDataRows _ _ _ _ drows 3)
          | ok ds =>
            rw [hp] at h'
            have h'' : (if ds = [] then Except.error MetaErr.noDataRows
                else Except.ok
                  (⟨r0.map trimWs, r1.map (fun t => lowerStr (trimWs t)),
                    ds, lc, ac⟩ : MetadataInput))
                = Except.error MetaErr.noDataRows := h'
            by_cases hds : ds = []
            · subst hds
              exact parseRows_ok_nil _ _ _ _ drows 3 hp
            · rw [if_neg hds] at h''
              exact Except.noConfusion h''

/-- Claim C10 counterexample: a data row whose three cells are all empty but
which is wider than the two-column header is not silently skipped — parsing
aborts with the row-width error, not the no-data-rows error, even though
every data row is blank in the claim's sense. -/
theorem C10_counterexample :
    parse_metadata_csv_vm
        [[lit "label", lit "accession"], [lit "character", lit "character"],
         [lit "", lit "", lit ""]]
      = .error (.rowTooManyCols 3)
    ∧ MetaErr.rowTooManyCols 3 ≠ MetaErr.noDataRows
    ∧ (∀ cell ∈ [lit "", lit "", lit ""], trimWs cell = []) := by
  decide

/-- Claim C10 (amended): a data row with at most header-many cells, all empty
after stripping, is silently skipped before the per-row checks (it produces
no output row and triggers no check); a blank row wider than the header
instead aborts with the row-width error; both parsers fail with the
no-data-rows error when every data row is blank within the header width; and
a no-data-rows failure of either parser means every data row was skipped by
the blank-row test and fits the header width. -/
theorem C10_blank_rows :
    (∀ (header : List Str) (labelCol accCol : Str) (strict : Bool) (i : Nat)
        (raw : List Str) (rest : List (List Str)),
      raw.length ≤ header.length →
      rowBlank (rowDict header raw) = true →
      parseRows header labelCol accCol strict i (raw :: rest)
        = parseRows header labelCol accCol strict (i + 1) rest)
    ∧ (∀ header raw : List Str,
        (∀ cell ∈ raw, trimWs cell = []) → rowBlank (rowDict header raw) = true)
    ∧ (∀ (r0 r1 : List Str) (drows : List (List Str)) (lc ac : Str),
        drows ≠ [] →
        (r0.map trimWs).length = (r1.map (fun t => lowerStr (trimWs t))).length →
        (r1.map (fun t => lowerStr (trimWs t))).any
            (fun t => decide (t ∉ validTypes)) = false →
        lowerLookup (r0.map trimWs) (lit "label") = some lc →
        lowerLookup (r0.map trimWs) (lit "accession") = some ac →
        (∀ raw ∈ drows,
          raw.length ≤ (r0.map trimWs).length ∧ ∀ cell ∈ raw, trimWs cell = []) →
        parse_metadata_csv_vm (r0 :: r1 :: drows) = .error .noDataRows)
    ∧ (∀ (r0 r1 : List Str) (drows : List (List Str)) (lc ac : Str),
        drows ≠ [] →
        (r0.map trimWs).length = (r1.map (fun t => lowerStr (trimWs t))).length →
        lowerLookup (r0.map trimWs) (lit "label") = some lc →
        lowerLookup (r0.map trimWs) (lit "accession") = some ac →
        (∀ raw ∈ drows,
          raw.length ≤ (r0.map trimWs).length ∧ ∀ cell ∈ raw, trimWs cell = []) →
        parse_metadata_csv_prep (r0 :: r1 :: drows) = .error .noDataRows)
    ∧ (∀ (r0 r1 : List Str) (drows : List (List Str)),
        parse_metadata_csv_vm (r0 :: r1 :: drows) = .error .noDataRows →
        ∀ raw ∈ drows,
          raw.length ≤ (r0.map trimWs).length
          ∧ rowBlank (rowDict (r0.map trimWs) raw) = true)
    ∧ (∀ (r0 r1 : List Str) (drows : List (List Str)),
        parse_metadata_csv_prep (r0 :: r1 :: drows) = .error .noDataRows →
        ∀ raw ∈ drows,
          raw.length ≤ (r0.map trimWs).length
          ∧ rowBlank (rowDict (r0.map trimWs) raw) = true) :=
  ⟨parseRows_skip_blank, rowDict_blank,
   fun r0 r1 drows lc ac h1 h2 h3 h4 h5 h6 =>
     parse_vm_noDataRows r0 r1 drows lc ac h1 h2 h3 h4 h5 h6,
   fun r0 r1 drows lc ac h1 h2 h4 h5 h6 =>
     parse_prep_noDataRows r0 r1 drows lc ac h1 h2 h4 h5 h6,
   parse_vm_noDataRows_inv, parse_prep_noDataRows_inv⟩

/-- Claim C10 witness: a metadata table whose single data row is blank fails
with the no-data-rows error. -/
theorem C10_witness :
    parse_metadata_csv_vm
        [[lit "label", lit "accession"], [lit "character", lit "character"],
         [lit "", lit ""]]
      = .error .noDataRows :=
  C10_blank_rows.2.2.1 [lit "label", lit "accession"]
    [lit "character", lit "character"] [[lit "", lit ""]]
    (lit "label") (lit "accession")
    (by decide) (by decide) (by decide) (by decide) (by decide) (by decide)
